import Mathlib

/-!
Shallow embedding of the tc-project-service sources:
  - src/app.js (direct route registrations, eslog handler)
  - src/routes/form/version/delete.js (form version delete chain,
    planConfig create-revision chain)
  - src/models/project.js (Project model: status validation, searchText)
  - src/permissions/constants.js (role matrices, default project role)
-/

namespace TCProject

/-! ## Middleware chains (src/app.js, src/routes/form/version/delete.js) -/

/-- Kinds of operations a route handler performs against the system:
an ORM query against the database, or spawning a shell via exec. -/
inductive HandlerOp
  | ormQuery
  | processExec
  deriving DecidableEq

/-- One element of an Express middleware chain as registered in the source:
a request-schema validation (express-validation `validate(schema)`),
a permission check (`permissions(policy)` from tc-core-library-js),
or the route handler itself, tagged with the operations it performs. -/
inductive MiddlewareStep
  | validateSchema
  | permissionCheck (policy : String)
  | handlerStep (ops : List HandlerOp)
  deriving DecidableEq

/-- Whether a step is a permission check. -/
def MiddlewareStep.isPermissionCheck : MiddlewareStep → Bool
  | MiddlewareStep.permissionCheck _ => true
  | _ => false

/-- Whether a step is a request-schema validation. -/
def MiddlewareStep.isValidateSchema : MiddlewareStep → Bool
  | MiddlewareStep.validateSchema => true
  | _ => false

/-- A route registered on the Express app: HTTP method, path and its
middleware chain. -/
structure Route where
  method : String
  path : String
  chain : List MiddlewareStep
  deriving DecidableEq

/-- Scans a middleware chain left to right. `seenValidate` records that a
`validate(schema)` middleware has already run; `seenGuard` records that a
permission check preceded by such a validation has already run. The chain
is accepted when every handler that performs an operation is reached only
after a permission check (itself preceded by the schema validation). -/
def guardedFrom (seenValidate seenGuard : Bool) : List MiddlewareStep → Bool
  | [] => true
  | MiddlewareStep.validateSchema :: rest => guardedFrom true seenGuard rest
  | MiddlewareStep.permissionCheck _ :: rest =>
      guardedFrom seenValidate (seenGuard || seenValidate) rest
  | MiddlewareStep.handlerStep ops :: rest =>
      (ops.isEmpty || seenGuard) && guardedFrom seenValidate seenGuard rest

/-- A chain is guarded when every operation-performing handler runs after a
validation-preceded permission check. -/
def chainGuarded (c : List MiddlewareStep) : Bool := guardedFrom false false c

/-- Whether some handler of the chain executes a process. -/
def chainRunsExec (c : List MiddlewareStep) : Bool :=
  c.any (fun s =>
    match s with
    | MiddlewareStep.handlerStep ops => ops.contains HandlerOp.processExec
    | _ => false)

/-- GET /v4/projects/index, registered directly on the app
(src/app.js lines 93-105): no validation and no permission middleware; the
handler runs two shell commands (`npm run sync:es`, `npm run migrate:es`)
via exec. -/
def projectsIndexRoute : Route :=
  { method := "GET"
    path := "/v4/projects/index"
    chain := [MiddlewareStep.handlerStep [HandlerOp.processExec, HandlerOp.processExec]] }

/-- GET /v4/projects/eslog, registered directly on the app
(src/app.js lines 107-116): no validation and no permission middleware; the
handler passes `req.query.q` to exec. -/
def projectsEslogRoute : Route :=
  { method := "GET"
    path := "/v4/projects/eslog"
    chain := [MiddlewareStep.handlerStep [HandlerOp.processExec]] }

/-- The two routes registered directly on the Express app in src/app.js. -/
def appRegisteredRoutes : List Route := [projectsIndexRoute, projectsEslogRoute]

/-- Middleware chain exported by the form version delete module
(src/routes/form/version/delete.js, first module): `validate(schema)`,
then `permissions('form.create')`, then the handler performing ORM
queries. -/
def formVersionDeleteChain : List MiddlewareStep :=
  [MiddlewareStep.validateSchema,
   MiddlewareStep.permissionCheck "form.create",
   MiddlewareStep.handlerStep [HandlerOp.ormQuery]]

/-- Middleware chain exported by the planConfig create-revision module
(src/routes/form/version/delete.js, second module): `validate(schema)`,
then `permissions('planConfig.create')`, then the handler performing ORM
queries. -/
def planConfigCreateRevisionChain : List MiddlewareStep :=
  [MiddlewareStep.validateSchema,
   MiddlewareStep.permissionCheck "planConfig.create",
   MiddlewareStep.handlerStep [HandlerOp.ormQuery]]

/-- The middleware chains exported by the route modules present in the
sources, mounted through the router (`app.use(router)` in src/app.js). -/
def routerChains : List (List MiddlewareStep) :=
  [formVersionDeleteChain, planConfigCreateRevisionChain]

/-! ## The eslog handler (src/app.js lines 107-116) -/

/-- Result of the Node `exec` callback: the error object (already
serialized, `none` when the command succeeded) and the buffered stdout and
stderr of the command. -/
structure ExecResult where
  err : Option String
  stdout : String
  stderr : String
  deriving DecidableEq

/-- JSON.stringify of the exec error argument: the serialized object, or
the string null when the callback received no error. -/
def jsonStringifyErr : Option String → String
  | none => "null"
  | some e => e

/-- The JSON body sent by the eslog handler via res.send. -/
structure EslogResponse where
  out1 : String
  erro1 : String
  errs1 : String
  deriving DecidableEq

/-- The GET /v4/projects/eslog handler (src/app.js lines 107-116): calls
exec on `req.query.q` and sends the command output in the response. The
shell is abstracted as a function `sh` from the executed command string to
its ExecResult. -/
def eslogHandler (sh : String → ExecResult) (q : String) : EslogResponse :=
  { out1 := "stdout: " ++ (sh q).stdout
    erro1 := "stderr: " ++ (sh q).stderr
    errs1 := jsonStringifyErr (sh q).err }

/-! ## Sorting helper for the SQL ORDER BY clauses -/

/-- Ordered insertion with a boolean comparator, used to model a SQL
ORDER BY result. -/
def insertOrdered {α : Type} (le : α → α → Bool) (a : α) : List α → List α
  | [] => [a]
  | b :: l => if le a b then a :: b :: l else b :: insertOrdered le a l

/-- Insertion sort with a boolean comparator, used to model a SQL ORDER BY
result. -/
def orderBy {α : Type} (le : α → α → Bool) : List α → List α
  | [] => []
  | a :: l => insertOrdered le a (orderBy le l)

/-! ## PlanConfig revisions (src/routes/form/version/delete.js, second module) -/

/-- A live row of the plan_configs table. -/
structure PlanConfigRow where
  key : String
  version : Nat
  revision : Nat
  createdBy : Int
  updatedBy : Int
  phases : String
  deriving DecidableEq

/-- The WHERE clause used by the planConfig handler: match on key and
version. -/
def planConfigWhere (key : String) (version : Nat) (r : PlanConfigRow) : Bool :=
  r.key == key && r.version == version

/-- Comparator for ORDER BY revision DESC. -/
def revisionDesc (a b : PlanConfigRow) : Bool := b.revision ≤ a.revision

/-- Comparator for ascending revision order (the oldest revision first). -/
def revisionAsc (a b : PlanConfigRow) : Bool := a.revision ≤ b.revision

/-- models.PlanConfig.findAll with where key and version and order
revision DESC, over the live rows db. -/
def planConfigFindAll (db : List PlanConfigRow) (key : String) (version : Nat) :
    List PlanConfigRow :=
  orderBy revisionDesc (db.filter (planConfigWhere key version))

/-- Modelled from the spec: models.PlanConfig.deleteOldestRevision is
defined in the PlanConfig model file, which is not among the provided
sources. Per the spec, the revision store is append-only with a
maximum-revision-count eviction policy that trims the bounded revision
list by evicting the oldest revision: the call removes, among the rows
matching the key and version, the one with the smallest revision number
(and is a no-op when no row matches). -/
def deleteOldestRevision (db : List PlanConfigRow) (key : String) (version : Nat) :
    List PlanConfigRow :=
  match (orderBy revisionAsc (db.filter (planConfigWhere key version))).head? with
  | none => db
  | some oldest => db.erase oldest

/-- Outcome of a route handler run inside a sequelize transaction: a
response with an HTTP status, a body and the database after commit, or an
error forwarded to `next`. On the error paths the transaction rolls back,
so the database carried by the outcome is the unchanged input database:
`apiError` is an Error with a `status` property rejected by the handler,
`internalError` is a thrown JavaScript error (such as reading a property
of undefined). -/
inductive TxOutcome (δ β : Type)
  | response (status : Nat) (body : β) (db : δ)
  | apiError (status : Nat) (db : δ)
  | internalError (db : δ)
  deriving DecidableEq

/-- The database state after the handler finished (committed or rolled
back). -/
def TxOutcome.db {δ β : Type} : TxOutcome δ β → δ
  | TxOutcome.response _ _ d => d
  | TxOutcome.apiError _ d => d
  | TxOutcome.internalError d => d

/-- The planConfig create-revision handler (second module of
src/routes/form/version/delete.js, lines 91-127): inside a transaction,
findAll the revisions matching key and version ordered by revision DESC;
if there are MAX_REVISION_NUMBER or more, delete the oldest revision and
continue with planConfigs[0]; if there are none, reject with a 404 error;
otherwise continue with planConfigs[0]. Then insert a new row whose
revision is planConfig.revision + 1, created and updated by the
requesting user, and respond 201 with the created entity. Reading
planConfigs[0].revision when planConfigs is empty throws, rolling the
transaction back. -/
def planConfigCreateRevision (maxRevisionNumber : Nat) (db : List PlanConfigRow)
    (userId : Int) (key : String) (version : Nat) (phases : String) :
    TxOutcome (List PlanConfigRow) PlanConfigRow :=
  let planConfigs := planConfigFindAll db key version
  let firstStep : Except (TxOutcome (List PlanConfigRow) PlanConfigRow)
      (Option PlanConfigRow × List PlanConfigRow) :=
    if planConfigs.length ≥ maxRevisionNumber then
      Except.ok (planConfigs.head?, deleteOldestRevision db key version)
    else if planConfigs.length = 0 then
      Except.error (TxOutcome.apiError 404 db)
    else
      Except.ok (planConfigs.head?, db)
  match firstStep with
  | Except.error e => e
  | Except.ok (none, _) => TxOutcome.internalError db
  | Except.ok (some planConfig, db1) =>
      let entity : PlanConfigRow :=
        { version := version
          revision := planConfig.revision + 1
          createdBy := userId
          updatedBy := userId
          key := key
          phases := phases }
      TxOutcome.response 201 entity (entity :: db1)

/-! ## Form version delete (src/routes/form/version/delete.js, first module) -/

/-- A row of the forms table; the model is paranoid, so destroyed rows
stay in the table with `deletedAt` set and are excluded from default
queries. -/
structure FormRow where
  key : String
  version : Nat
  revision : Nat
  config : String
  deletedBy : Option Int
  deletedAt : Bool
  deriving DecidableEq

/-- The WHERE clause used by the form version delete handler: match on
key and version. -/
def formWhere (key : String) (version : Nat) (r : FormRow) : Bool :=
  r.key == key && r.version == version

/-- models.Form.findAll with where key and version: the paranoid default
scope returns only rows that are not soft-deleted. -/
def formFindAll (db : List FormRow) (key : String) (version : Nat) : List FormRow :=
  db.filter (fun r => !r.deletedAt && formWhere key version r)

/-- models.Form.update setting deletedBy to the requesting user on every
live row matching key and version. -/
def formUpdateDeletedBy (db : List FormRow) (userId : Int) (key : String)
    (version : Nat) : List FormRow :=
  db.map (fun r =>
    if !r.deletedAt && formWhere key version r
    then { r with deletedBy := some userId } else r)

/-- models.Form.destroy with where key and version: the paranoid model
soft-deletes by setting deletedAt on every live matching row. -/
def formDestroy (db : List FormRow) (key : String) (version : Nat) : List FormRow :=
  db.map (fun r =>
    if !r.deletedAt && formWhere key version r
    then { r with deletedAt := true } else r)

/-- The form version delete handler (first module of
src/routes/form/version/delete.js, lines 18-54): inside a transaction,
findAll the rows matching key and version; with none, reject with a 404
error; otherwise update deletedBy to the requesting user on the matching
rows, destroy them, and respond 204 with an empty body (`none`). -/
def formVersionDelete (db : List FormRow) (userId : Int) (key : String)
    (version : Nat) : TxOutcome (List FormRow) (Option String) :=
  let allRevision := formFindAll db key version
  if allRevision.length = 0 then
    TxOutcome.apiError 404 db
  else
    TxOutcome.response 204 none
      (formDestroy (formUpdateDeletedBy db userId key version) key version)

/-! ## Project model (src/models/project.js) -/

/-- The status column validator of the Project model
(src/models/project.js lines 27-33): allowNull is false and the isIn
validation accepts exactly the values of the PROJECT_STATUS enumeration.
The enumeration lives in src/constants.js outside the provided sources,
so the validator is parameterized by its list of values. -/
def projectStatusIsIn (projectStatusValues : List String) :
    Option String → Bool
  | none => false
  | some s => projectStatusValues.contains s

/-- A row of the projects table, restricted to the columns the searchText
raw SQL reads. -/
structure ProjectRow where
  id : Int
  status : String
  type : String
  projectFullText : String
  deriving DecidableEq

/-- A row of the project_members table, restricted to the columns the
searchText join reads. -/
structure ProjectMemberRow where
  projectId : Int
  userId : Int
  deriving DecidableEq

/-- A row of the project_member_invites table, restricted to the columns
the searchText join reads. -/
structure ProjectMemberInviteRow where
  projectId : Int
  userId : Option Int
  email : Option String
  deriving DecidableEq

/-- The id filter of searchText: absent, an object with an $in list, or a
plain string or number. -/
inductive IdFilter
  | absent
  | inList (vals : List Int)
  | eqValue (v : Int)
  deriving DecidableEq

/-- The status filter of searchText: absent, an object with an $in list,
or a plain string. -/
inductive StatusFilter
  | absent
  | inList (vals : List String)
  | eqValue (s : String)
  deriving DecidableEq

/-- The userId and email replacements of the member filter of searchText
(either may be undefined, which compares as SQL NULL). -/
structure MemberFilter where
  userId : Option Int
  email : Option String
  deriving DecidableEq

/-- The filters parameter of searchText. The member field is `some` when
the filters carry a userId or email key, which makes the raw SQL add the
member and invite joins and the GROUP BY clause. -/
structure SearchFilters where
  id : IdFilter
  status : StatusFilter
  type : Option String
  keyword : Option String
  member : Option MemberFilter
  deriving DecidableEq

/-- The id replacement list finally bound into the SQL
(src/models/project.js lines 99-101): an empty $in list gets -1 pushed
before the query is built. -/
def effectiveIdList (vals : List Int) : List Int :=
  if vals.length = 0 then [-1] else vals

/-- Whether a project row passes the id condition of the WHERE clause. -/
def matchesIdFilter (f : IdFilter) (p : ProjectRow) : Bool :=
  match f with
  | IdFilter.absent => true
  | IdFilter.inList vals => (effectiveIdList vals).contains p.id
  | IdFilter.eqValue v => p.id == v

/-- Whether a project row passes the status condition of the WHERE
clause. -/
def matchesStatusFilter (f : StatusFilter) (p : ProjectRow) : Bool :=
  match f with
  | StatusFilter.absent => true
  | StatusFilter.inList vals => vals.contains p.status
  | StatusFilter.eqValue s => p.status == s

/-- The part of the searchText WHERE clause that constrains the projects
row alone (id, status, type and keyword conditions, built in
src/models/project.js lines 95-126). The keyword condition is a POSIX
regex match on projectFullText, abstracted as the comparator `km`. -/
def matchesWhere (km : String → String → Bool) (f : SearchFilters)
    (p : ProjectRow) : Bool :=
  matchesIdFilter f.id p && matchesStatusFilter f.status p
  && (match f.type with
      | none => true
      | some t => p.type == t)
  && (match f.keyword with
      | none => true
      | some kw => km p.projectFullText kw)

/-- The member and invite condition added to the WHERE clause when a
userId or email filter is present (src/models/project.js lines 130-132);
comparisons against an absent replacement or a NULL column are false. -/
def memberWhere (mf : MemberFilter) (m : Option ProjectMemberRow)
    (i : Option ProjectMemberInviteRow) : Bool :=
  (match m, mf.userId with
   | some mr, some u => mr.userId == u
   | _, _ => false)
  || (match i, mf.userId with
      | some ir, some u => ir.userId == some u
      | _, _ => false)
  || (match i, mf.email with
      | some ir, some e => ir.email == some e
      | _, _ => false)

/-- The rows the two LEFT OUTER JOINs produce for one project
(src/models/project.js lines 134-135): the cross product of its member
rows and invite rows, with a NULL side when a table has no row for the
project. -/
def leftJoinRows (members : List ProjectMemberRow)
    (invites : List ProjectMemberInviteRow) (p : ProjectRow) :
    List (Option ProjectMemberRow × Option ProjectMemberInviteRow) :=
  let ms := members.filter (fun m => m.projectId == p.id)
  let ivs := invites.filter (fun i => i.projectId == p.id)
  let mopts := if ms.isEmpty then [none] else ms.map some
  let iopts := if ivs.isEmpty then [none] else ivs.map some
  mopts.flatMap (fun m => iopts.map (fun i => (m, i)))

/-- Result rows of the SELECT COUNT(1) query (src/models/project.js lines
146-153): without the member join it is a single row carrying the total
count of matching projects; with the member join and GROUP BY projects.id
it is one row per project that has at least one joined row passing the
WHERE clause, each carrying the count of those joined rows. -/
def countQueryRows (km : String → String → Bool) (f : SearchFilters)
    (projects : List ProjectRow) (members : List ProjectMemberRow)
    (invites : List ProjectMemberInviteRow) : List Nat :=
  match f.member with
  | none => [(projects.filter (matchesWhere km f)).length]
  | some mf =>
      (projects.filter (matchesWhere km f)).filterMap (fun p =>
        let c := (leftJoinRows members invites p).countP
          (fun r => memberWhere mf r.1 r.2)
        if c = 0 then none else some c)

/-- The projects matched by the searchText queries: those passing the
WHERE clause, and, when the member filter is active, having at least one
joined member or invite row passing it (GROUP BY collapses the joined
rows back to one row per project). -/
def searchMatchingProjects (km : String → String → Bool) (f : SearchFilters)
    (projects : List ProjectRow) (members : List ProjectMemberRow)
    (invites : List ProjectMemberInviteRow) : List ProjectRow :=
  match f.member with
  | none => projects.filter (matchesWhere km f)
  | some mf =>
      (projects.filter (matchesWhere km f)).filter (fun p =>
        (leftJoinRows members invites p).any (fun r => memberWhere mf r.1 r.2))

/-- The parameters of searchText: the filters, the ORDER BY comparator
built from parameters.order, and limit and offset. -/
structure SearchParameters where
  filters : SearchFilters
  order : ProjectRow → ProjectRow → Bool
  limit : Nat
  offset : Nat

/-- Project.searchText (src/models/project.js lines 93-174): runs the
COUNT query, sets count to fcount[0].count when fcount has exactly one
row and to fcount.length otherwise, then runs the row query with ORDER
BY, LIMIT and OFFSET, returning the pair of rows and count. -/
def searchText (km : String → String → Bool) (params : SearchParameters)
    (projects : List ProjectRow) (members : List ProjectMemberRow)
    (invites : List ProjectMemberInviteRow) : List ProjectRow × Nat :=
  let fcount := countQueryRows km params.filters projects members invites
  let count := if fcount.length = 1 then fcount.headD 0 else fcount.length
  let rows :=
    ((orderBy params.order
        (searchMatchingProjects km params.filters projects members invites)).drop
      params.offset).take params.limit
  (rows, count)

/-! ## Permission constants (src/permissions/constants.js) -/

/-- Modelled from the spec: the USER_ROLE string constants are defined in
src/constants.js, which is not among the provided sources. The spec
describes role matrices over Topcoder roles; the distinct role constants
referenced by src/permissions/constants.js are modelled as atoms. -/
inductive UserRole
  | TOPCODER_ADMIN
  | CONNECT_ADMIN
  | TOPCODER_USER
  | MANAGER
  | COPILOT
  | COPILOT_MANAGER
  | TOPCODER_ACCOUNT_MANAGER
  | BUSINESS_DEVELOPMENT_REPRESENTATIVE
  | PRESALES
  | ACCOUNT_EXECUTIVE
  | PROGRAM_MANAGER
  | SOLUTION_ARCHITECT
  | PROJECT_MANAGER
  deriving DecidableEq

/-- Modelled from the spec: the PROJECT_MEMBER_ROLE string constants are
defined in src/constants.js, which is not among the provided sources. The
spec describes project-role matrices; the distinct project role constants
referenced by src/permissions/constants.js are modelled as atoms. -/
inductive ProjectMemberRole
  | CUSTOMER
  | MANAGER
  | COPILOT
  | ACCOUNT_MANAGER
  | ACCOUNT_EXECUTIVE
  | PROGRAM_MANAGER
  | SOLUTION_ARCHITECT
  | PROJECT_MANAGER
  deriving DecidableEq

/-- TOPCODER_ROLES_ALL, the value list of USER_ROLE
(src/permissions/constants.js line 81). -/
def TOPCODER_ROLES_ALL : List UserRole :=
  [UserRole.TOPCODER_ADMIN, UserRole.CONNECT_ADMIN, UserRole.TOPCODER_USER,
   UserRole.MANAGER, UserRole.COPILOT, UserRole.COPILOT_MANAGER,
   UserRole.TOPCODER_ACCOUNT_MANAGER,
   UserRole.BUSINESS_DEVELOPMENT_REPRESENTATIVE, UserRole.PRESALES,
   UserRole.ACCOUNT_EXECUTIVE, UserRole.PROGRAM_MANAGER,
   UserRole.SOLUTION_ARCHITECT, UserRole.PROJECT_MANAGER]

/-- PROJECT_TO_TOPCODER_ROLES_MATRIX (src/permissions/constants.js lines
333-365): the Topcoder roles allowed to hold each project role. -/
def PROJECT_TO_TOPCODER_ROLES_MATRIX : ProjectMemberRole → List UserRole
  | ProjectMemberRole.MANAGER =>
      [UserRole.TOPCODER_ADMIN, UserRole.CONNECT_ADMIN, UserRole.MANAGER]
  | ProjectMemberRole.SOLUTION_ARCHITECT => [UserRole.SOLUTION_ARCHITECT]
  | ProjectMemberRole.PROJECT_MANAGER => [UserRole.PROJECT_MANAGER]
  | ProjectMemberRole.PROGRAM_MANAGER => [UserRole.PROGRAM_MANAGER]
  | ProjectMemberRole.ACCOUNT_EXECUTIVE => [UserRole.ACCOUNT_EXECUTIVE]
  | ProjectMemberRole.ACCOUNT_MANAGER =>
      [UserRole.MANAGER, UserRole.TOPCODER_ACCOUNT_MANAGER,
       UserRole.BUSINESS_DEVELOPMENT_REPRESENTATIVE, UserRole.PRESALES,
       UserRole.ACCOUNT_EXECUTIVE, UserRole.PROGRAM_MANAGER,
       UserRole.SOLUTION_ARCHITECT, UserRole.PROJECT_MANAGER]
  | ProjectMemberRole.COPILOT => [UserRole.COPILOT]
  | ProjectMemberRole.CUSTOMER => TOPCODER_ROLES_ALL

/-- One entry of DEFAULT_PROJECT_ROLE. -/
structure DefaultRoleEntry where
  topcoderRole : UserRole
  projectRole : ProjectMemberRole
  deriving DecidableEq

/-- DEFAULT_PROJECT_ROLE (src/permissions/constants.js lines 376-414):
ordered list used to resolve the default project role from the first
entry whose Topcoder role the user holds. -/
def DEFAULT_PROJECT_ROLE : List DefaultRoleEntry :=
  [{ topcoderRole := UserRole.MANAGER, projectRole := ProjectMemberRole.MANAGER },
   { topcoderRole := UserRole.CONNECT_ADMIN, projectRole := ProjectMemberRole.MANAGER },
   { topcoderRole := UserRole.TOPCODER_ADMIN, projectRole := ProjectMemberRole.MANAGER },
   { topcoderRole := UserRole.TOPCODER_ACCOUNT_MANAGER,
     projectRole := ProjectMemberRole.ACCOUNT_MANAGER },
   { topcoderRole := UserRole.BUSINESS_DEVELOPMENT_REPRESENTATIVE,
     projectRole := ProjectMemberRole.ACCOUNT_MANAGER },
   { topcoderRole := UserRole.PRESALES, projectRole := ProjectMemberRole.ACCOUNT_MANAGER },
   { topcoderRole := UserRole.COPILOT, projectRole := ProjectMemberRole.ACCOUNT_MANAGER },
   { topcoderRole := UserRole.ACCOUNT_EXECUTIVE,
     projectRole := ProjectMemberRole.ACCOUNT_EXECUTIVE },
   { topcoderRole := UserRole.PROGRAM_MANAGER,
     projectRole := ProjectMemberRole.PROGRAM_MANAGER },
   { topcoderRole := UserRole.SOLUTION_ARCHITECT,
     projectRole := ProjectMemberRole.SOLUTION_ARCHITECT },
   { topcoderRole := UserRole.PROJECT_MANAGER,
     projectRole := ProjectMemberRole.PROJECT_MANAGER },
   { topcoderRole := UserRole.TOPCODER_USER,
     projectRole := ProjectMemberRole.CUSTOMER }]

/-! ## Helper lemmas about the ORDER BY model -/

theorem perm_insertOrdered {α : Type} (le : α → α → Bool) (a : α) (l : List α) :
    (insertOrdered le a l).Perm (a :: l) := by
  induction l with
  | nil => exact List.Perm.refl _
  | cons b t ih =>
    cases h : le a b with
    | true => simp [insertOrdered, h]
    | false =>
      simp only [insertOrdered, h, Bool.false_eq_true, if_false]
      exact (List.Perm.cons b ih).trans (List.Perm.swap a b t)

theorem perm_orderBy {α : Type} (le : α → α → Bool) (l : List α) :
    (orderBy le l).Perm l := by
  induction l with
  | nil => exact List.Perm.refl _
  | cons a t ih =>
    exact (perm_insertOrdered le a (orderBy le t)).trans (List.Perm.cons a ih)

theorem mem_orderBy {α : Type} {le : α → α → Bool} {l : List α} {x : α} :
    x ∈ orderBy le l ↔ x ∈ l :=
  (perm_orderBy le l).mem_iff

theorem length_orderBy {α : Type} (le : α → α → Bool) (l : List α) :
    (orderBy le l).length = l.length :=
  (perm_orderBy le l).length_eq

theorem pairwise_insertOrdered {α : Type} {le : α → α → Bool}
    (htrans : ∀ a b c, le a b = true → le b c = true → le a c = true)
    (htot : ∀ a b, le a b = true ∨ le b a = true)
    (a : α) (l : List α) (hl : l.Pairwise (fun x y => le x y = true)) :
    (insertOrdered le a l).Pairwise (fun x y => le x y = true) := by
  induction l with
  | nil => simp [insertOrdered]
  | cons b t ih =>
    rw [List.pairwise_cons] at hl
    cases hab : le a b with
    | true =>
      simp only [insertOrdered, hab, if_true]
      rw [List.pairwise_cons]
      refine ⟨?_, List.pairwise_cons.mpr hl⟩
      intro x hx
      rcases List.mem_cons.mp hx with rfl | hxt
      · exact hab
      · exact htrans a b x hab (hl.1 x hxt)
    | false =>
      simp only [insertOrdered, hab, Bool.false_eq_true, if_false]
      rw [List.pairwise_cons]
      refine ⟨?_, ih hl.2⟩
      intro x hx
      rcases List.mem_cons.mp ((perm_insertOrdered le a t).mem_iff.mp hx) with hax | hxt
      · subst hax
        rcases htot x b with h1 | h1
        · rw [hab] at h1; exact absurd h1 (by simp)
        · exact h1
      · exact hl.1 x hxt

theorem pairwise_orderBy {α : Type} {le : α → α → Bool}
    (htrans : ∀ a b c, le a b = true → le b c = true → le a c = true)
    (htot : ∀ a b, le a b = true ∨ le b a = true) (l : List α) :
    (orderBy le l).Pairwise (fun x y => le x y = true) := by
  induction l with
  | nil => simp [orderBy]
  | cons a t ih => exact pairwise_insertOrdered htrans htot a (orderBy le t) ih

theorem head_rel_of_orderBy {α : Type} {le : α → α → Bool}
    (htrans : ∀ a b c, le a b = true → le b c = true → le a c = true)
    (htot : ∀ a b, le a b = true ∨ le b a = true) {l : List α} {h : α}
    (hh : (orderBy le l).head? = some h) :
    h ∈ l ∧ ∀ x ∈ l, le h x = true := by
  have hp := pairwise_orderBy htrans htot l
  cases hsort : orderBy le l with
  | nil => rw [hsort] at hh; exact absurd hh (by simp)
  | cons f rest =>
    rw [hsort] at hh hp
    have hf : f = h := by simpa using hh
    subst hf
    constructor
    · exact mem_orderBy.mp (by rw [hsort]; exact List.mem_cons_self f rest)
    · intro x hx
      have hx2 : x ∈ f :: rest := by
        rw [← hsort]; exact mem_orderBy.mpr hx
      rcases List.mem_cons.mp hx2 with rfl | hxr
      · rcases htot x x with h1 | h1 <;> exact h1
      · exact List.rel_of_pairwise_cons hp hxr

/-! ## Helper lemmas about filter, erase and filterMap -/

theorem filter_erase_of_pos {α : Type} [DecidableEq α] (p : α → Bool)
    (l : List α) (a : α) (ha : p a = true) :
    (l.erase a).filter p = (l.filter p).erase a := by
  induction l with
  | nil => rfl
  | cons b t ih =>
    rw [List.erase_cons]
    cases hba : b == a with
    | true =>
      have hb : b = a := eq_of_beq hba
      subst hb
      simp [List.filter_cons, ha, List.erase_cons]
    | false =>
      cases hpb : p b with
      | true =>
        simp only [hba, Bool.false_eq_true, if_false, List.filter_cons, hpb,
          if_true, List.erase_cons, ih]
      | false =>
        simp only [hba, Bool.false_eq_true, if_false, List.filter_cons, hpb, ih]

theorem filterMap_pos_counts {α : Type} (g : α → Nat) (l : List α) :
    (l.filterMap fun p => if g p = 0 then none else some (g p)) =
      (l.filter fun p => !(g p == 0)).map g := by
  induction l with
  | nil => rfl
  | cons b t ih =>
    cases hb : g b with
    | zero => simp [List.filterMap_cons, List.filter_cons, hb, ih]
    | succ n => simp [List.filterMap_cons, List.filter_cons, hb, ih]

/-! ## Helper lemmas about the planConfig revision store -/

theorem revisionDesc_trans : ∀ a b c : PlanConfigRow,
    revisionDesc a b = true → revisionDesc b c = true → revisionDesc a c = true := by
  intro a b c h1 h2
  simp only [revisionDesc, decide_eq_true_eq] at h1 h2 ⊢
  exact le_trans h2 h1

theorem revisionDesc_total : ∀ a b : PlanConfigRow,
    revisionDesc a b = true ∨ revisionDesc b a = true := by
  intro a b
  simp only [revisionDesc, decide_eq_true_eq]
  exact le_total b.revision a.revision

theorem revisionAsc_trans : ∀ a b c : PlanConfigRow,
    revisionAsc a b = true → revisionAsc b c = true → revisionAsc a c = true := by
  intro a b c h1 h2
  simp only [revisionAsc, decide_eq_true_eq] at h1 h2 ⊢
  exact le_trans h1 h2

theorem revisionAsc_total : ∀ a b : PlanConfigRow,
    revisionAsc a b = true ∨ revisionAsc b a = true := by
  intro a b
  simp only [revisionAsc, decide_eq_true_eq]
  exact le_total a.revision b.revision

/-- The head of the DESC-ordered findAll result is a matching row with the
greatest revision number. -/
theorem planConfigFindAll_head_max {db : List PlanConfigRow} {key : String}
    {version : Nat} {top : PlanConfigRow}
    (h : (planConfigFindAll db key version).head? = some top) :
    top ∈ db.filter (planConfigWhere key version)
      ∧ ∀ r ∈ planConfigFindAll db key version, r.revision ≤ top.revision := by
  have hm := head_rel_of_orderBy revisionDesc_trans revisionDesc_total h
  refine ⟨hm.1, ?_⟩
  intro r hr
  have hr2 : r ∈ db.filter (planConfigWhere key version) := mem_orderBy.mp hr
  have := hm.2 r hr2
  simpa [revisionDesc] using this

/-- The row evicted by deleteOldestRevision is a matching row with the
least revision number. -/
theorem deleteOldestRevision_head_min {db : List PlanConfigRow} {key : String}
    {version : Nat} {oldest : PlanConfigRow}
    (h : (orderBy revisionAsc (db.filter (planConfigWhere key version))).head? =
      some oldest) :
    oldest ∈ db.filter (planConfigWhere key version)
      ∧ ∀ r ∈ db.filter (planConfigWhere key version),
          oldest.revision ≤ r.revision := by
  have hm := head_rel_of_orderBy revisionAsc_trans revisionAsc_total h
  refine ⟨hm.1, ?_⟩
  intro r hr
  have := hm.2 r hr
  simpa [revisionAsc] using this

/-! ## Branch characterizations of the planConfig create-revision handler -/

theorem planConfigCreateRevision_404 {cfg : Nat} {pdb : List PlanConfigRow}
    {userId : Int} {key : String} {version : Nat} {phases : String}
    (hnge : ¬((planConfigFindAll pdb key version).length ≥ cfg))
    (h0 : planConfigFindAll pdb key version = []) :
    planConfigCreateRevision cfg pdb userId key version phases =
      TxOutcome.apiError 404 pdb := by
  simp only [planConfigCreateRevision]
  rw [if_neg hnge, if_pos (by rw [h0]; rfl)]

theorem planConfigCreateRevision_insert {cfg : Nat} {pdb : List PlanConfigRow}
    {userId : Int} {key : String} {version : Nat} {phases : String}
    {top : PlanConfigRow} {rest : List PlanConfigRow}
    (hnge : ¬((planConfigFindAll pdb key version).length ≥ cfg))
    (hcons : planConfigFindAll pdb key version = top :: rest) :
    planConfigCreateRevision cfg pdb userId key version phases =
      TxOutcome.response 201
        { key := key, version := version, revision := top.revision + 1,
          createdBy := userId, updatedBy := userId, phases := phases }
        ({ key := key, version := version, revision := top.revision + 1,
           createdBy := userId, updatedBy := userId, phases := phases } :: pdb) := by
  have hhead : (planConfigFindAll pdb key version).head? = some top := by
    rw [hcons]; rfl
  simp only [planConfigCreateRevision]
  rw [if_neg hnge, if_neg (by simp [hcons]), hhead]

theorem planConfigCreateRevision_evict {cfg : Nat} {pdb : List PlanConfigRow}
    {userId : Int} {key : String} {version : Nat} {phases : String}
    {top : PlanConfigRow} {rest : List PlanConfigRow}
    (hge : (planConfigFindAll pdb key version).length ≥ cfg)
    (hcons : planConfigFindAll pdb key version = top :: rest) :
    planConfigCreateRevision cfg pdb userId key version phases =
      TxOutcome.response 201
        { key := key, version := version, revision := top.revision + 1,
          createdBy := userId, updatedBy := userId, phases := phases }
        ({ key := key, version := version, revision := top.revision + 1,
           createdBy := userId, updatedBy := userId, phases := phases } ::
          deleteOldestRevision pdb key version) := by
  have hhead : (planConfigFindAll pdb key version).head? = some top := by
    rw [hcons]; rfl
  simp only [planConfigCreateRevision]
  rw [if_pos hge, hhead]

theorem planConfigCreateRevision_internal {cfg : Nat} {pdb : List PlanConfigRow}
    {userId : Int} {key : String} {version : Nat} {phases : String}
    (hge : (planConfigFindAll pdb key version).length ≥ cfg)
    (hnil : planConfigFindAll pdb key version = []) :
    planConfigCreateRevision cfg pdb userId key version phases =
      TxOutcome.internalError pdb := by
  have hhead : (planConfigFindAll pdb key version).head? = none := by
    rw [hnil]; rfl
  simp only [planConfigCreateRevision]
  rw [if_pos hge, hhead]

/-- Branch characterization of the form version delete handler when a
matching row exists. -/
theorem formVersionDelete_delete {db : List FormRow} {userId : Int}
    {key : String} {version : Nat}
    (h0 : ¬(formFindAll db key version).length = 0) :
    formVersionDelete db userId key version =
      TxOutcome.response 204 none
        (formDestroy (formUpdateDeletedBy db userId key version) key version) := by
  simp only [formVersionDelete]
  rw [if_neg h0]

/-! ## Claim theorems -/

/-- Claim C1 is false on the code: the route GET /v4/projects/eslog is
registered on the Express app with a middleware chain that contains no
permission check before its handler, and that handler executes a process
(exec on req.query.q), so a process execution is reached on a request
that never passed a permission check. -/
theorem C1_counterexample :
    projectsEslogRoute ∈ appRegisteredRoutes
    ∧ chainGuarded projectsEslogRoute.chain = false
    ∧ chainRunsExec projectsEslogRoute.chain = true := by
  decide

/-- Claim C1 (amended): every middleware chain exported by the route
modules in the sources runs the request-schema validation and then the
permission check before its operation-performing handler; however, the
two routes registered directly on the app in src/app.js
(GET /v4/projects/index and GET /v4/projects/eslog) are not guarded:
their chains contain no validation and no permission middleware, and
their handlers execute processes. -/
theorem C1_router_chains_guarded_app_routes_not :
    routerChains.all chainGuarded = true
    ∧ appRegisteredRoutes.all
        (fun r => !chainGuarded r.chain
          && r.chain.all (fun s => !s.isValidateSchema && !s.isPermissionCheck)
          && chainRunsExec r.chain) = true := by
  decide

/-- Claim C2: the GET /v4/projects/eslog chain has no schema validation
and no permission check; the handler passes req.query.q verbatim to exec
and sends the command's stdout, stderr and serialized error object in the
response; and there is a shell and two distinct query values whose
responses differ, so the attacker-chosen command execution interferes
with the observable output. -/
theorem C2_eslog_unguarded_exec :
    projectsEslogRoute.chain.all
        (fun s => !s.isValidateSchema && !s.isPermissionCheck) = true
    ∧ (∀ sh : String → ExecResult, ∀ q : String,
        eslogHandler sh q =
          { out1 := "stdout: " ++ (sh q).stdout
            erro1 := "stderr: " ++ (sh q).stderr
            errs1 := jsonStringifyErr (sh q).err })
    ∧ (∃ sh : String → ExecResult, ∃ q1 q2 : String, q1 ≠ q2 ∧
        eslogHandler sh q1 ≠ eslogHandler sh q2) := by
  refine ⟨by decide, fun sh q => rfl, ?_⟩
  exact ⟨fun s => ⟨none, s, ""⟩, "", "x", by decide, by decide⟩

/-- Claim C10 is false on the code, which contradicts its own comment on
DEFAULT_PROJECT_ROLE: the entry assigning project role ACCOUNT_MANAGER to
Topcoder role COPILOT is in DEFAULT_PROJECT_ROLE, yet COPILOT is not in
the PROJECT_TO_TOPCODER_ROLES_MATRIX row for ACCOUNT_MANAGER; every other
entry satisfies the matrix. -/
theorem C10_copilot_default_role_not_in_matrix :
    ({ topcoderRole := UserRole.COPILOT,
       projectRole := ProjectMemberRole.ACCOUNT_MANAGER : DefaultRoleEntry }
        ∈ DEFAULT_PROJECT_ROLE)
    ∧ (PROJECT_TO_TOPCODER_ROLES_MATRIX
        ProjectMemberRole.ACCOUNT_MANAGER).contains UserRole.COPILOT = false
    ∧ DEFAULT_PROJECT_ROLE.all
        (fun e => (e.topcoderRole == UserRole.COPILOT)
          || (PROJECT_TO_TOPCODER_ROLES_MATRIX e.projectRole).contains
              e.topcoderRole) = true := by
  decide

/-- Claim C7: any status value accepted by the Project model's status
validator (isIn over the PROJECT_STATUS values, with allowNull false) is
a member of the PROJECT_STATUS enumeration. -/
theorem C7_status_in_enum (vals : List String) (st : Option String)
    (h : projectStatusIsIn vals st = true) :
    ∃ s, st = some s ∧ s ∈ vals := by
  cases st with
  | none => exact absurd h (by simp [projectStatusIsIn])
  | some s =>
    refine ⟨s, rfl, ?_⟩
    have hc : vals.contains s = true := h
    simpa using hc

/-- Witness for C7 at a concrete status list and value. -/
theorem C7_witness :
    ∃ s, (some "active" : Option String) = some s ∧ s ∈ ["active", "draft"] :=
  C7_status_in_enum ["active", "draft"] (some "active") (by decide)

/-- Claim C5: the form-version delete and planConfig create-revision
operations fail with a 404 error passed to the error middleware exactly
when no stored row matches the requested key and version (for planConfig
create, provided the existing revision count is below
MAX_REVISION_NUMBER), the only apiError either operation produces is
that 404, and on the error path the stored data is unchanged. -/
theorem C5_not_found_404 (fdb : List FormRow) (pdb : List PlanConfigRow)
    (cfg : Nat) (userId : Int) (key : String) (version : Nat) (phases : String)
    (hlt : (planConfigFindAll pdb key version).length < cfg) :
    (formVersionDelete fdb userId key version = TxOutcome.apiError 404 fdb
      ↔ formFindAll fdb key version = [])
    ∧ (planConfigCreateRevision cfg pdb userId key version phases =
        TxOutcome.apiError 404 pdb ↔ planConfigFindAll pdb key version = [])
    ∧ (∀ s d, formVersionDelete fdb userId key version = TxOutcome.apiError s d
        → s = 404 ∧ d = fdb)
    ∧ (∀ s d, planConfigCreateRevision cfg pdb userId key version phases =
        TxOutcome.apiError s d → s = 404 ∧ d = pdb) := by
  have hnge : ¬((planConfigFindAll pdb key version).length ≥ cfg) :=
    not_le.mpr hlt
  constructor
  · by_cases h0 : (formFindAll fdb key version).length = 0
    · simp [formVersionDelete, h0, List.length_eq_zero.mp h0]
    · have hne : formFindAll fdb key version ≠ [] := by
        intro hc; exact h0 (by simp [hc])
      simp [formVersionDelete, h0, hne]
  constructor
  · cases hc : planConfigFindAll pdb key version with
    | nil => simp [planConfigCreateRevision_404 hnge hc]
    | cons top rest =>
      rw [planConfigCreateRevision_insert hnge hc]
      simp
  constructor
  · intro s d hsd
    by_cases h0 : (formFindAll fdb key version).length = 0
    · simp [formVersionDelete, h0] at hsd
      exact ⟨hsd.1.symm, hsd.2.symm⟩
    · simp [formVersionDelete, h0] at hsd
  · intro s d hsd
    cases hc : planConfigFindAll pdb key version with
    | nil =>
      rw [planConfigCreateRevision_404 hnge hc] at hsd
      injection hsd with h1 h2
      exact ⟨h1.symm, h2.symm⟩
    | cons top rest =>
      rw [planConfigCreateRevision_insert hnge hc] at hsd
      exact absurd hsd (by simp)

/-- Witness for C5: with no matching Form row the delete operation
returns the 404 error and leaves the store unchanged. -/
theorem C5_witness :
    formVersionDelete [] 7 "k" 1 = TxOutcome.apiError 404 [] :=
  ((C5_not_found_404 [] [⟨"k", 1, 1, 5, 5, "p"⟩] 5 7 "k" 1 "p"
    (by decide)).1).mpr rfl

/-- Claim C6: when at least one live Form row matches the key and
version, the delete operation responds 204 with an empty body and the
resulting store is the input store with every live matching row updated
to carry deletedBy equal to the requesting user and then soft-deleted
(deletedAt set); all other rows are untouched. -/
theorem C6_form_version_delete_soft_deletes (db : List FormRow) (userId : Int)
    (key : String) (version : Nat) (h : formFindAll db key version ≠ []) :
    formVersionDelete db userId key version =
      TxOutcome.response 204 none
        (db.map (fun r =>
          if !r.deletedAt && formWhere key version r
          then { r with deletedBy := some userId, deletedAt := true } else r)) := by
  have h0 : ¬(formFindAll db key version).length = 0 := by
    intro hc; exact h (List.length_eq_zero.mp hc)
  rw [formVersionDelete_delete h0]
  simp only [formDestroy, formUpdateDeletedBy, List.map_map]
  refine congrArg (TxOutcome.response 204 none) (congrArg db.map ?_)
  funext r
  simp only [Function.comp_apply]
  cases hc : (!r.deletedAt && formWhere key version r) with
  | true =>
    obtain ⟨hd, hk, hv⟩ : r.deletedAt = false ∧ r.key = key ∧ r.version = version := by
      simpa [formWhere] using hc
    simp [formWhere, hd, hk, hv]
  | false =>
    simp [hc]

/-- Witness for C6 at a concrete store with one live matching row. -/
theorem C6_witness :
    formVersionDelete [⟨"k", 1, 1, "c", none, false⟩] 9 "k" 1 =
      TxOutcome.response 204 none
        ([⟨"k", 1, 1, "c", none, false⟩].map (fun r =>
          if !r.deletedAt && formWhere "k" 1 r
          then { r with deletedBy := some (9 : Int), deletedAt := true } else r)) :=
  C6_form_version_delete_soft_deletes _ 9 "k" 1 (by decide)

/-- Claim C9: when the id filter carries an empty $in list, the value -1
is substituted into the replacement list, and searchText over stores
whose project ids are positive returns no rows and count 0. -/
theorem C9_empty_in_filter (km : String → String → Bool)
    (params : SearchParameters) (projects : List ProjectRow)
    (members : List ProjectMemberRow) (invites : List ProjectMemberInviteRow)
    (hid : params.filters.id = IdFilter.inList [])
    (hpos : ∀ p ∈ projects, 1 ≤ p.id) :
    effectiveIdList [] = [-1]
    ∧ searchText km params projects members invites = ([], 0) := by
  refine ⟨by decide, ?_⟩
  have hfilter : projects.filter (matchesWhere km params.filters) = [] := by
    rw [List.filter_eq_nil_iff]
    intro p hp
    have hne : ¬(p.id = -1) := by have := hpos p hp; omega
    simp [matchesWhere, matchesIdFilter, hid, effectiveIdList, hne]
  cases hm : params.filters.member with
  | none =>
    simp [searchText, countQueryRows, searchMatchingProjects, hm, hfilter, orderBy]
  | some mf =>
    simp [searchText, countQueryRows, searchMatchingProjects, hm, hfilter, orderBy]

/-- Witness for C9 at a concrete store and an empty $in id filter. -/
theorem C9_witness :
    searchText (fun _ _ => false)
      ⟨⟨IdFilter.inList [], StatusFilter.absent, none, none, none⟩,
        fun _ _ => true, 10, 0⟩
      [⟨1, "active", "t", "x"⟩] [] [] = ([], 0) :=
  (C9_empty_in_filter _ _ _ _ _ rfl (by decide)).2

/-- Claim C4: whenever at least one revision matches the key and version,
the create-revision operation inserts a single new row whose revision is
one above the greatest existing revision (hence above every existing
revision), with createdBy and updatedBy set to the requesting user, and
every other row of the resulting store is an unmodified row of the input
store. -/
theorem C4_append_only_revision (cfg : Nat) (db : List PlanConfigRow)
    (userId : Int) (key : String) (version : Nat) (phases : String)
    (h0 : planConfigFindAll db key version ≠ []) :
    ∃ top ∈ planConfigFindAll db key version, ∃ db1,
      (∀ r ∈ planConfigFindAll db key version, r.revision ≤ top.revision)
      ∧ planConfigCreateRevision cfg db userId key version phases =
          TxOutcome.response 201
            { key := key, version := version, revision := top.revision + 1,
              createdBy := userId, updatedBy := userId, phases := phases }
            ({ key := key, version := version, revision := top.revision + 1,
               createdBy := userId, updatedBy := userId, phases := phases } :: db1)
      ∧ ∀ r ∈ db1, r ∈ db := by
  obtain ⟨top, rest, hcons⟩ : ∃ top rest,
      planConfigFindAll db key version = top :: rest := by
    cases hc : planConfigFindAll db key version with
    | nil => exact absurd hc h0
    | cons a l => exact ⟨a, l, rfl⟩
  have htop : (planConfigFindAll db key version).head? = some top := by
    rw [hcons]; rfl
  have hmax := (planConfigFindAll_head_max htop).2
  refine ⟨top, by rw [hcons]; exact List.mem_cons_self _ _, ?_⟩
  by_cases hge : (planConfigFindAll db key version).length ≥ cfg
  · refine ⟨deleteOldestRevision db key version, hmax,
      planConfigCreateRevision_evict hge hcons, ?_⟩
    intro r hr
    unfold deleteOldestRevision at hr
    cases hh : (orderBy revisionAsc (db.filter (planConfigWhere key version))).head? with
    | none => rw [hh] at hr; exact hr
    | some oldest => rw [hh] at hr; exact List.erase_subset _ _ hr
  · exact ⟨db, hmax, planConfigCreateRevision_insert hge hcons, fun r hr => hr⟩

/-- Witness for C4 at a concrete store holding two revisions. -/
theorem C4_witness :
    ∃ top ∈ planConfigFindAll
        [⟨"k", 1, 1, 5, 5, "a"⟩, ⟨"k", 1, 2, 5, 5, "b"⟩] "k" 1, ∃ db1,
      (∀ r ∈ planConfigFindAll
          [⟨"k", 1, 1, 5, 5, "a"⟩, ⟨"k", 1, 2, 5, 5, "b"⟩] "k" 1,
        r.revision ≤ top.revision)
      ∧ planConfigCreateRevision 5
            [⟨"k", 1, 1, 5, 5, "a"⟩, ⟨"k", 1, 2, 5, 5, "b"⟩] 7 "k" 1 "c" =
          TxOutcome.response 201
            { key := "k", version := 1, revision := top.revision + 1,
              createdBy := 7, updatedBy := 7, phases := "c" }
            ({ key := "k", version := 1, revision := top.revision + 1,
               createdBy := 7, updatedBy := 7, phases := "c" } :: db1)
      ∧ ∀ r ∈ db1, r ∈ [⟨"k", 1, 1, 5, 5, "a"⟩, ⟨"k", 1, 2, 5, 5, "b"⟩] :=
  C4_append_only_revision 5 [⟨"k", 1, 1, 5, 5, "a"⟩, ⟨"k", 1, 2, 5, 5, "b"⟩]
    7 "k" 1 "c" (by decide)

/-- Claim C3: over a store whose matching revision numbers are distinct,
if the revision count for a key and version is at most
MAX_REVISION_NUMBER then after the create-revision operation it is still
at most MAX_REVISION_NUMBER, and when the count had reached
MAX_REVISION_NUMBER (and the bound is positive) the evicted row is a
matching row with the least revision number: it is gone from the
resulting store while every other matching row survives. -/
theorem C3_revision_count_bounded (cfg : Nat) (db : List PlanConfigRow)
    (userId : Int) (key : String) (version : Nat) (phases : String)
    (hle : (planConfigFindAll db key version).length ≤ cfg)
    (hnodup : ((planConfigFindAll db key version).map PlanConfigRow.revision).Nodup) :
    (planConfigFindAll
        (planConfigCreateRevision cfg db userId key version phases).db
        key version).length ≤ cfg
    ∧ ((planConfigFindAll db key version).length = cfg → 0 < cfg →
        ∃ oldest ∈ planConfigFindAll db key version,
          (∀ r ∈ planConfigFindAll db key version, oldest.revision ≤ r.revision)
          ∧ oldest ∉
              planConfigFindAll
                (planConfigCreateRevision cfg db userId key version phases).db
                key version
          ∧ ∀ r ∈ planConfigFindAll db key version, r ≠ oldest →
              r ∈ planConfigFindAll
                    (planConfigCreateRevision cfg db userId key version phases).db
                    key version) := by
  have hlenF : (planConfigFindAll db key version).length =
      (db.filter (planConfigWhere key version)).length :=
    length_orderBy revisionDesc (db.filter (planConfigWhere key version))
  have hnodupF : ((db.filter (planConfigWhere key version)).map
      PlanConfigRow.revision).Nodup :=
    ((perm_orderBy revisionDesc
      (db.filter (planConfigWhere key version))).map
        PlanConfigRow.revision).nodup_iff.mp hnodup
  have hndF : (db.filter (planConfigWhere key version)).Nodup :=
    List.Nodup.of_map _ hnodupF
  by_cases hge : (planConfigFindAll db key version).length ≥ cfg
  · have hn : (planConfigFindAll db key version).length = cfg :=
      le_antisymm hle hge
    by_cases hnil : planConfigFindAll db key version = []
    · rw [planConfigCreateRevision_internal hge hnil]
      constructor
      · simpa [TxOutcome.db] using hle
      · intro h1 h2
        exfalso
        rw [hnil] at h1
        simp at h1
        omega
    · obtain ⟨top, rest, hcons⟩ : ∃ top rest,
          planConfigFindAll db key version = top :: rest := by
        cases hc : planConfigFindAll db key version with
        | nil => exact absurd hc hnil
        | cons a l => exact ⟨a, l, rfl⟩
      have htop : (planConfigFindAll db key version).head? = some top := by
        rw [hcons]; rfl
      have htopF : top ∈ db.filter (planConfigWhere key version) :=
        (planConfigFindAll_head_max htop).1
      have hFne : db.filter (planConfigWhere key version) ≠ [] :=
        List.ne_nil_of_mem htopF
      obtain ⟨oldest, hasc⟩ : ∃ a,
          (orderBy revisionAsc (db.filter (planConfigWhere key version))).head? =
            some a := by
        cases hA : orderBy revisionAsc (db.filter (planConfigWhere key version)) with
        | nil =>
          exfalso
          apply hFne
          have hl := length_orderBy revisionAsc (db.filter (planConfigWhere key version))
          rw [hA] at hl
          exact List.length_eq_zero.mp hl.symm
        | cons a l => exact ⟨a, rfl⟩
      have hmin := deleteOldestRevision_head_min hasc
      have hdel : deleteOldestRevision db key version = db.erase oldest := by
        unfold deleteOldestRevision
        rw [hasc]
      have hwold : planConfigWhere key version oldest = true :=
        (List.mem_filter.mp hmin.1).2
      rw [planConfigCreateRevision_evict hge hcons, hdel]
      simp only [TxOutcome.db]
      have hwe : planConfigWhere key version
          ({ key := key, version := version, revision := top.revision + 1,
             createdBy := userId, updatedBy := userId,
             phases := phases } : PlanConfigRow) = true := by
        simp [planConfigWhere]
      have hafter : planConfigFindAll
          ({ key := key, version := version, revision := top.revision + 1,
             createdBy := userId, updatedBy := userId,
             phases := phases } :: db.erase oldest) key version =
          orderBy revisionDesc
            ({ key := key, version := version, revision := top.revision + 1,
               createdBy := userId, updatedBy := userId,
               phases := phases } ::
              (db.filter (planConfigWhere key version)).erase oldest) := by
        unfold planConfigFindAll
        rw [List.filter_cons, if_pos hwe, filter_erase_of_pos _ db oldest hwold]
      rw [hafter]
      have hlenerase : ((db.filter (planConfigWhere key version)).erase oldest).length =
          (db.filter (planConfigWhere key version)).length - 1 :=
        List.length_erase_of_mem hmin.1
      have hFpos : 0 < (db.filter (planConfigWhere key version)).length :=
        List.length_pos.mpr hFne
      constructor
      · rw [length_orderBy]
        simp only [List.length_cons, hlenerase]
        omega
      · intro h1 h2
        refine ⟨oldest, mem_orderBy.mpr hmin.1, ?_, ?_, ?_⟩
        · intro r hr
          exact hmin.2 r (mem_orderBy.mp hr)
        · intro hmem
          rcases List.mem_cons.mp (mem_orderBy.mp hmem) with hoe | hoe
          · have hrev : oldest.revision ≤ top.revision := hmin.2 top htopF
            rw [hoe] at hrev
            simp at hrev
          · rw [List.Nodup.mem_erase_iff hndF] at hoe
            exact hoe.1 rfl
        · intro r hr hne
          have hrF : r ∈ db.filter (planConfigWhere key version) :=
            mem_orderBy.mp hr
          have hrE : r ∈ (db.filter (planConfigWhere key version)).erase oldest :=
            (List.Nodup.mem_erase_iff hndF).mpr ⟨hne, hrF⟩
          exact mem_orderBy.mpr (List.mem_cons_of_mem _ hrE)
  · by_cases hnil : planConfigFindAll db key version = []
    · rw [planConfigCreateRevision_404 hge hnil]
      constructor
      · simpa [TxOutcome.db] using hle
      · intro h1 h2
        exfalso
        rw [hnil] at h1
        simp at h1
        omega
    · obtain ⟨top, rest, hcons⟩ : ∃ top rest,
          planConfigFindAll db key version = top :: rest := by
        cases hc : planConfigFindAll db key version with
        | nil => exact absurd hc hnil
        | cons a l => exact ⟨a, l, rfl⟩
      rw [planConfigCreateRevision_insert hge hcons]
      simp only [TxOutcome.db]
      have hwe : planConfigWhere key version
          ({ key := key, version := version, revision := top.revision + 1,
             createdBy := userId, updatedBy := userId,
             phases := phases } : PlanConfigRow) = true := by
        simp [planConfigWhere]
      have hafter : planConfigFindAll
          ({ key := key, version := version, revision := top.revision + 1,
             createdBy := userId, updatedBy := userId,
             phases := phases } :: db) key version =
          orderBy revisionDesc
            ({ key := key, version := version, revision := top.revision + 1,
               createdBy := userId, updatedBy := userId,
               phases := phases } :: db.filter (planConfigWhere key version)) := by
        unfold planConfigFindAll
        rw [List.filter_cons, if_pos hwe]
      rw [hafter]
      constructor
      · rw [length_orderBy]
        simp only [List.length_cons]
        have hlt := not_le.mp hge
        omega
      · intro h1 h2
        exfalso
        exact hge (le_of_eq h1.symm)

/-- Witness for C3 at a concrete store at the revision bound: the count
stays at the bound and the oldest revision is evicted. -/
theorem C3_witness :
    (planConfigFindAll
        (planConfigCreateRevision 2
          [⟨"k", 1, 1, 5, 5, "a"⟩, ⟨"k", 1, 2, 5, 5, "b"⟩] 7 "k" 1 "c").db
        "k" 1).length ≤ 2 :=
  (C3_revision_count_bounded 2 [⟨"k", 1, 1, 5, 5, "a"⟩, ⟨"k", 1, 2, 5, 5, "b"⟩]
    7 "k" 1 "c" (by decide) (by decide)).1

/-- With the member filter active, the COUNT query returns one joined-row
count per matching project. -/
theorem countQueryRows_member_some (km : String → String → Bool)
    (f : SearchFilters) (mf : MemberFilter) (projects : List ProjectRow)
    (members : List ProjectMemberRow) (invites : List ProjectMemberInviteRow)
    (hm : f.member = some mf) :
    countQueryRows km f projects members invites =
      (searchMatchingProjects km f projects members invites).map
        (fun p => (leftJoinRows members invites p).countP
          (fun r => memberWhere mf r.1 r.2)) := by
  simp only [countQueryRows, searchMatchingProjects, hm]
  rw [filterMap_pos_counts
    (fun p => (leftJoinRows members invites p).countP
      (fun r => memberWhere mf r.1 r.2))]
  refine congrArg (List.map _) (List.filter_congr ?_)
  intro p hp
  cases hc : (leftJoinRows members invites p).countP
      (fun r => memberWhere mf r.1 r.2) with
  | zero =>
    have hany : (leftJoinRows members invites p).any
        (fun r => memberWhere mf r.1 r.2) = false := by
      by_contra hany
      have hT : (leftJoinRows members invites p).any
          (fun r => memberWhere mf r.1 r.2) = true := by
        cases hA : (leftJoinRows members invites p).any
            (fun r => memberWhere mf r.1 r.2) with
        | true => rfl
        | false => exact absurd hA hany
      obtain ⟨a, ha, hpa⟩ := List.any_eq_true.mp hT
      have hpos : 0 < (leftJoinRows members invites p).countP
          (fun r => memberWhere mf r.1 r.2) :=
        List.countP_pos_iff.mpr ⟨a, ha, hpa⟩
      rw [hc] at hpos
      exact absurd hpos (by omega)
    simp [hc, hany]
  | succ n =>
    have hpos : 0 < (leftJoinRows members invites p).countP
        (fun r => memberWhere mf r.1 r.2) := by
      rw [hc]; omega
    obtain ⟨a, ha, hpa⟩ := List.countP_pos_iff.mp hpos
    have hany : (leftJoinRows members invites p).any
        (fun r => memberWhere mf r.1 r.2) = true :=
      List.any_eq_true.mpr ⟨a, ha, hpa⟩
    simp [hc, hany]

/-- Claim C8 is false on the code at a concrete store: with the
userId/email member filter active, exactly one project matches the
filters, yet searchText returns count 2 (the number of joined member and
invite rows of that project) instead of 1. -/
theorem C8_counterexample :
    (searchText (fun _ _ => false)
        ⟨⟨IdFilter.absent, StatusFilter.absent, none, none,
          some ⟨some 10, some "a@b.c"⟩⟩, fun _ _ => true, 10, 0⟩
        [⟨1, "active", "generic", "t"⟩] [⟨1, 10⟩]
        [⟨1, none, some "a@b.c"⟩, ⟨1, none, some "d@e.f"⟩]).2 = 2
    ∧ (searchMatchingProjects (fun _ _ => false)
        ⟨IdFilter.absent, StatusFilter.absent, none, none,
          some ⟨some 10, some "a@b.c"⟩⟩
        [⟨1, "active", "generic", "t"⟩] [⟨1, 10⟩]
        [⟨1, none, some "a@b.c"⟩, ⟨1, none, some "d@e.f"⟩]).length = 1 := by
  decide

/-- Claim C8 (amended): searchText returns rows equal to the window of at
most `limit` matching projects starting at `offset` in the requested
order (the matching projects arranged by the ORDER BY comparator, which
sorts them whenever the comparator is transitive and total); the returned
count equals the number of matching projects whenever no member filter is
given, and also whenever the number of matching projects differs from
one; but when the member filter is active and exactly one project
matches, the count instead equals the number of joined member and invite
rows of that project, which can differ from one. -/
theorem C8_search_count (km : String → String → Bool)
    (params : SearchParameters) (projects : List ProjectRow)
    (members : List ProjectMemberRow) (invites : List ProjectMemberInviteRow) :
    (searchText km params projects members invites).1.length ≤ params.limit
    ∧ (∀ r ∈ (searchText km params projects members invites).1,
        r ∈ searchMatchingProjects km params.filters projects members invites)
    ∧ (params.filters.member = none →
        (searchText km params projects members invites).2 =
          (searchMatchingProjects km params.filters projects members
            invites).length)
    ∧ ((searchMatchingProjects km params.filters projects members
          invites).length ≠ 1 →
        (searchText km params projects members invites).2 =
          (searchMatchingProjects km params.filters projects members
            invites).length)
    ∧ (∀ mf p, params.filters.member = some mf →
        searchMatchingProjects km params.filters projects members invites = [p] →
        (searchText km params projects members invites).2 =
          (leftJoinRows members invites p).countP
            (fun r => memberWhere mf r.1 r.2))
    ∧ (searchText km params projects members invites).1 =
        ((orderBy params.order
            (searchMatchingProjects km params.filters projects members
              invites)).drop params.offset).take params.limit
    ∧ (orderBy params.order
        (searchMatchingProjects km params.filters projects members
          invites)).Perm
        (searchMatchingProjects km params.filters projects members invites)
    ∧ ((∀ a b c, params.order a b = true → params.order b c = true →
          params.order a c = true) →
        (∀ a b, params.order a b = true ∨ params.order b a = true) →
        (orderBy params.order
          (searchMatchingProjects km params.filters projects members
            invites)).Pairwise (fun a b => params.order a b = true)) := by
  refine ⟨?_, ?_, ?_, ?_, ?_, ?_, ?_, ?_⟩
  · simp only [searchText]
    exact List.length_take_le _ _
  · intro r hr
    simp only [searchText] at hr
    exact mem_orderBy.mp (List.drop_subset _ _ (List.take_subset _ _ hr))
  · intro hm
    simp only [searchText, countQueryRows, searchMatchingProjects, hm]
    simp
  · intro hlen
    cases hm : params.filters.member with
    | none =>
      simp only [searchText, countQueryRows, searchMatchingProjects, hm]
      simp
    | some mf =>
      have hfc := countQueryRows_member_some km params.filters mf projects
        members invites hm
      simp only [searchText, hfc, List.length_map]
      rw [if_neg hlen]
  · intro mf p hm hMp
    have hfc := countQueryRows_member_some km params.filters mf projects
      members invites hm
    simp only [searchText, hfc, hMp]
    simp
  · simp only [searchText]
  · exact perm_orderBy _ _
  · intro htrans htot
    exact pairwise_orderBy htrans htot _

/-- Witness for C8 at a concrete store with no member filter: the count
equals the number of matching projects. -/
theorem C8_witness :
    (searchText (fun _ _ => true)
      ⟨⟨IdFilter.absent, StatusFilter.absent, none, none, none⟩,
        fun _ _ => true, 5, 0⟩
      [⟨1, "active", "t", "x"⟩] [] []).2 = 1 :=
  ((C8_search_count (fun _ _ => true)
      ⟨⟨IdFilter.absent, StatusFilter.absent, none, none, none⟩,
        fun _ _ => true, 5, 0⟩
      [⟨1, "active", "t", "x"⟩] [] []).2.2.1 rfl).trans (by decide)

end TCProject
